import Mathlib

/-!
Verification development for the AnnotationSortr image-sorting engine.

The Python source is shallowly embedded as follows:

* a `pathlib.Path` becomes a `Path := List String` of components;
* the on-disk file set becomes an `FS := List Path` (membership = the file
  exists); `shutil.move` becomes `moveFile`, which fails when the source
  file is absent and otherwise overwrites the destination;
* `SorterPage._move` becomes `moveOp`, `SorterPage._sort` becomes
  `sortAction`, `SorterPage._undo` becomes `undoAction`.  Python mutation
  is modelled by explicit state passing: each action returns the new
  `SorterState` together with a `Bool` that is `true` exactly when the
  Python code would let a file-operation exception escape (in that case
  the returned state records the mutations performed before the raise);
* the bounded `deque(maxlen=MAX_HISTORY)` becomes `pushHistory`;
* `ProjectPage._populate`'s chunking becomes `populateChunks`;
* `utils.gather_images` becomes `gather_images` over an `FSTree` in which
  every entry carries an `ok` flag modelling accessibility (a `false`
  directory is one whose `os.scandir` raises, a `false` file is one whose
  per-entry stat raises); exceptions absorbed by the source's
  `try/except` blocks are modelled by the function being total;
* `utils.load_pixmap` becomes `load_pixmap` over an explicit cache list,
  an existence predicate and a decoder oracle (`none` = `QPixmap.isNull`);
* `SorterPage._unprocessed` becomes `unprocQueue`; Python's stable
  `list.sort(key=..., reverse=True)` is rendered by the stable
  `List.insertionSort` with the relation "key of the left argument is
  at least the key of the right argument".
-/

namespace ASort

-- ─────────────────────────────────────────────────────────────
-- Paths (pathlib.Path, as a list of components)
-- ─────────────────────────────────────────────────────────────

abbrev Path := List String

/-- `p.name`: the final path component (pathlib `Path.name`). -/
def Path.name (p : Path) : String := p.getLastD ""

/-- `p.parent`: the path without its final component (pathlib `Path.parent`). -/
def Path.parent (p : Path) : Path := p.dropLast

/-- `d / n`: extend a directory path by one component (pathlib `/`). -/
def Path.child (d : Path) (n : String) : Path := d ++ [n]

/-- `str(path)`: the string form used as a cache key. -/
def pathStr (p : Path) : String := String.intercalate "/" p

/-- Index of the last `'.'` in a file name (CPython `str.rfind('.')`). -/
def lastDotIdx (cs : List Char) : Option Nat :=
  ((List.range cs.length).filter (fun i => cs.getD i ' ' = '.')).getLast?

/-- pathlib `PurePath.suffix` on a file name: the extension from the last
dot, empty when the dot is leading, trailing or absent. -/
def nameSuffix (n : String) : String :=
  match lastDotIdx n.toList with
  | none => ""
  | some i => if 0 < i ∧ i + 1 < n.toList.length then String.mk (n.toList.drop i) else ""

/-- pathlib `PurePath.with_suffix` on a file name: replace the suffix, or
append it when the name has none. -/
def withSuffixName (n suf : String) : String :=
  match lastDotIdx n.toList with
  | none => n ++ suf
  | some i => if 0 < i ∧ i + 1 < n.toList.length then String.mk (n.toList.take i) ++ suf else n ++ suf

/-- pathlib `Path.with_suffix` on a path. -/
def Path.withSuffix (p : Path) (suf : String) : Path :=
  p.parent ++ [withSuffixName p.name suf]

-- ─────────────────────────────────────────────────────────────
-- config.py constants used by the engine
-- ─────────────────────────────────────────────────────────────

/-- Python `str.lower()`, character-wise (ASCII case folding, as applied
to file-name suffixes). -/
def strLower (s : String) : String := String.mk (s.toList.map Char.toLower)

/-- config.py `MAX_HISTORY = 20`. -/
def MAX_HISTORY : Nat := 20

/-- config.py `IMG_EXTS`. -/
def IMG_EXTS : List String := [".jpg", ".jpeg", ".png", ".bmp", ".tif", ".tiff", ".gif"]

-- ─────────────────────────────────────────────────────────────
-- Filesystem and SorterPage._move
-- ─────────────────────────────────────────────────────────────

/-- The set of existing files, as a list of paths. -/
abbrev FS := List Path

/-- `shutil.move(src, dst)`: fails (raises) when `src` does not exist,
otherwise removes `src` and places the file at `dst`, overwriting any
file already there. -/
def moveFile (fs : FS) (src dst : Path) : Option FS :=
  if src ∈ fs then some (List.insert dst (fs.erase src)) else none

/-- Result of `SorterPage._move`: the destination path it returns, and the
filesystem afterwards. -/
structure MoveResult where
  dst : Path
  fs : FS
deriving DecidableEq, Repr

/-- `SorterPage._move(src, dst_dir)` (sorterpage.py lines 342-351):
`dst = dst_dir/src.name`; if `dst == src` return `dst` without touching
the filesystem; otherwise `shutil.move(src, dst)`, then if the sidecar
`src.with_suffix('.txt')` exists move it to `dst_dir/ann.name` too.
`none` models an escaping exception. -/
def moveOp (fs : FS) (src dstDir : Path) : Option MoveResult :=
  if dstDir.child src.name = src then some ⟨dstDir.child src.name, fs⟩
  else do
    let fs1 ← moveFile fs src (dstDir.child src.name)
    if src.withSuffix ".txt" ∈ fs1 then
      let fs2 ← moveFile fs1 (src.withSuffix ".txt")
        (dstDir.child (src.withSuffix ".txt").name)
      pure ⟨dstDir.child src.name, fs2⟩
    else
      pure ⟨dstDir.child src.name, fs1⟩

-- ─────────────────────────────────────────────────────────────
-- History (deque(maxlen=MAX_HISTORY)) and the sorter state
-- ─────────────────────────────────────────────────────────────

/-- sorterpage.py `HistoryEntry`. -/
structure HistoryEntry where
  src : Path
  orig_parent : Path
  state : String
deriving DecidableEq, Repr

/-- `deque.append` on a deque with `maxlen = MAX_HISTORY`: append on the
right, silently discarding the oldest (leftmost) entry past capacity. -/
def pushHistory (h : List HistoryEntry) (e : HistoryEntry) : List HistoryEntry :=
  if MAX_HISTORY < (h ++ [e]).length then
    (h ++ [e]).drop ((h ++ [e]).length - MAX_HISTORY)
  else h ++ [e]

/-- The mutable state of a `SorterPage` relevant to sorting: the fixed
class and delete directories, the work queue `images` (deque, head on the
left), the bounded `history` (most recent entry on the right), and the
filesystem it acts on. -/
structure SorterState where
  class_dir : Path
  delete_dir : Path
  images : List Path
  history : List HistoryEntry
  fs : FS
deriving DecidableEq, Repr

/-- Destination directory chosen by `_sort`:
`(self.class_dir/act) if act != 'delete' else self.delete_dir`. -/
def dstDirFor (s : SorterState) (act : String) : Path :=
  if act ≠ "delete" then s.class_dir.child act else s.delete_dir

/-- `SorterPage._sort(act)` (sorterpage.py lines 353-364).  Returns the
new state and `true` when a file-operation exception escaped.  The move
runs first; only on its success is a `HistoryEntry` appended and the head
popped off the queue. -/
def sortAction (s : SorterState) (act : String) : SorterState × Bool :=
  match s.images with
  | [] => (s, false)
  | src :: rest =>
    match moveOp s.fs src (dstDirFor s act) with
    | none => (s, true)
    | some r =>
      ({ s with fs := r.fs,
                history := pushHistory s.history ⟨r.dst, src.parent, act⟩,
                images := rest }, false)

/-- `SorterPage._undo` (sorterpage.py lines 366-376).  Pops the most
recent history entry, then moves the file back to its recorded original
parent and pushes the restored path on the front of the queue.  Note the
pop happens before the move is attempted: when the move raises, the
returned state has the entry already removed. -/
def undoAction (s : SorterState) : SorterState × Bool :=
  match s.history.getLast? with
  | none => (s, false)
  | some entry =>
    let h2 := s.history.dropLast
    match moveOp s.fs entry.src entry.orig_parent with
    | none => ({ s with history := h2 }, true)
    | some r =>
      ({ s with fs := r.fs, history := h2, images := r.dst :: s.images }, false)

-- ─────────────────────────────────────────────────────────────
-- Small path lemmas
-- ─────────────────────────────────────────────────────────────

theorem Path.child_eq_child_iff {d₁ d₂ : Path} {n₁ n₂ : String} :
    d₁.child n₁ = d₂.child n₂ ↔ d₁ = d₂ ∧ n₁ = n₂ := by
  unfold Path.child
  constructor
  · intro h
    have h' := congrArg List.reverse h
    simp at h'
    exact ⟨h'.2, h'.1⟩
  · rintro ⟨rfl, rfl⟩; rfl

theorem Path.name_child (d : Path) (n : String) : (d.child n).name = n := by
  simp [Path.child, Path.name]

theorem Path.parent_child (d : Path) (n : String) : (d.child n).parent = d := by
  simp [Path.child, Path.parent]

theorem Path.parent_child_self {p : Path} (h : p ≠ []) : p.parent.child p.name = p := by
  unfold Path.parent Path.child Path.name
  have hname : p.getLastD "" = p.getLast h := by
    rw [List.getLastD_eq_getLast?, List.getLast?_eq_getLast p h]
    rfl
  rw [hname, List.dropLast_append_getLast h]

theorem Path.withSuffix_parent (p : Path) (suf : String) :
    (p.withSuffix suf) = p.parent.child (withSuffixName p.name suf) := rfl

/-- A name whose pathlib suffix is not `".txt"` changes when `".txt"` is
substituted for its suffix. -/
theorem withSuffixName_txt_ne {n : String} (h : nameSuffix n ≠ ".txt") :
    withSuffixName n ".txt" ≠ n := by
  have h4 : String.length ".txt" = 4 := rfl
  unfold withSuffixName
  unfold nameSuffix at h
  intro hEq
  rcases hIdx : lastDotIdx n.toList with _ | i
  · rw [hIdx] at hEq
    dsimp only at hEq
    have := congrArg String.length hEq
    rw [String.length_append] at this
    omega
  · rw [hIdx] at hEq h
    dsimp only at hEq h
    by_cases hc : 0 < i ∧ i + 1 < n.toList.length
    · rw [if_pos hc] at hEq
      rw [if_pos hc] at h
      apply h
      have hdata : (n.toList.take i ++ ".txt".toList) = n.toList := congrArg String.data hEq
      have hsplit : n.toList.take i ++ n.toList.drop i = n.toList := List.take_append_drop i _
      have hdrop : n.toList.drop i = ".txt".toList := by
        have h2 : n.toList.take i ++ ".txt".toList = n.toList.take i ++ n.toList.drop i := by
          rw [hdata, hsplit]
        exact (List.append_cancel_left h2).symm
      rw [hdrop]
      rfl
    · rw [if_neg hc] at hEq
      have := congrArg String.length hEq
      rw [String.length_append] at this
      omega

-- ─────────────────────────────────────────────────────────────
-- pushHistory and moveOp lemmas
-- ─────────────────────────────────────────────────────────────

theorem getLast?_drop_of_lt {α : Type} {l : List α} {k : Nat} (hk : k < l.length) :
    (l.drop k).getLast? = l.getLast? := by
  rw [List.getLast?_eq_getElem?, List.getLast?_eq_getElem?, List.getElem?_drop, List.length_drop]
  congr 1
  omega

theorem pushHistory_length (h : List HistoryEntry) (e : HistoryEntry) :
    (pushHistory h e).length = min (h.length + 1) MAX_HISTORY := by
  unfold pushHistory
  split <;> rename_i hl <;> simp_all [List.length_drop] <;> omega

theorem pushHistory_getLast (h : List HistoryEntry) (e : HistoryEntry) :
    (pushHistory h e).getLast? = some e := by
  unfold pushHistory
  have hcat : (h ++ [e]).getLast? = some e := List.getLast?_concat h
  have h20 : MAX_HISTORY = 20 := rfl
  split
  · rename_i hl
    have hlt : (h ++ [e]).length - MAX_HISTORY < (h ++ [e]).length := by omega
    rw [getLast?_drop_of_lt hlt, hcat]
  · exact hcat

theorem pushHistory_ne_nil (h : List HistoryEntry) (e : HistoryEntry) :
    pushHistory h e ≠ [] := by
  intro hc
  have := pushHistory_getLast h e
  rw [hc] at this
  simp at this

/-- For a history respecting the capacity invariant, `deque.append` keeps
exactly the most recent `MAX_HISTORY` entries. -/
theorem pushHistory_eq_drop (h : List HistoryEntry) (e : HistoryEntry) :
    pushHistory h e = (h ++ [e]).drop ((h ++ [e]).length - MAX_HISTORY) := by
  unfold pushHistory
  split
  · rfl
  · rename_i hl
    have h0 : (h ++ [e]).length - MAX_HISTORY = 0 := by
      simp only [not_lt] at hl
      omega
    rw [h0, List.drop_zero]

/-- The path returned by `_move` is always `dst_dir/src.name`. -/
theorem moveOp_dst {fs : FS} {src dstDir : Path} {r : MoveResult}
    (h : moveOp fs src dstDir = some r) : r.dst = dstDir.child src.name := by
  unfold moveOp at h
  split at h
  · cases h; rfl
  · rcases hmf : moveFile fs src (dstDir.child src.name) with _ | fs1 <;>
      simp only [Option.bind_eq_bind, hmf, Option.none_bind, Option.some_bind,
        reduceCtorEq] at h
    split at h
    · rcases hmf2 : moveFile fs1 (src.withSuffix ".txt")
          (dstDir.child (src.withSuffix ".txt").name) with _ | fs2 <;>
        simp only [hmf2, Option.none_bind, Option.some_bind, reduceCtorEq] at h
      cases h; rfl
    · cases h; rfl

-- ─────────────────────────────────────────────────────────────
-- C8 and C10: behaviour of one sort action
-- ─────────────────────────────────────────────────────────────

/-- C8: sorting an image whose source path equals the computed destination
path `dst_dir/src.name` performs no filesystem move at all: the action
reports no file-move error and the filesystem (hence also the sidecar) is
untouched. -/
theorem same_destination_noop (s : SorterState) (act : String) (src : Path)
    (rest : List Path) (hq : s.images = src :: rest)
    (hsame : (dstDirFor s act).child src.name = src) :
    (sortAction s act).2 = false ∧ (sortAction s act).1.fs = s.fs ∧
      moveOp s.fs src (dstDirFor s act) = some ⟨src, s.fs⟩ := by
  have hmv : moveOp s.fs src (dstDirFor s act) = some ⟨src, s.fs⟩ := by
    unfold moveOp
    rw [if_pos hsame, hsame]
  refine ⟨?_, ?_, hmv⟩ <;> simp [sortAction, hq, hmv]

def sameDstState : SorterState :=
  { class_dir := ["base", "cat"]
  , delete_dir := ["base", "delete", "cat"]
  , images := [["base", "cat", "keep", "x.jpg"]]
  , history := []
  , fs := [["base", "cat", "keep", "x.jpg"], ["base", "cat", "keep", "x.txt"]] }

theorem same_destination_noop_inst :
    (sortAction sameDstState "keep").2 = false ∧
      (sortAction sameDstState "keep").1.fs = sameDstState.fs ∧
      moveOp sameDstState.fs ["base", "cat", "keep", "x.jpg"]
        (dstDirFor sameDstState "keep") =
        some ⟨["base", "cat", "keep", "x.jpg"], sameDstState.fs⟩ :=
  same_destination_noop sameDstState "keep" ["base", "cat", "keep", "x.jpg"] []
    (by rfl) (by decide)

/-- C10: a sort action on a non-empty queue that reports no error pops
exactly the head off the queue and appends exactly one `HistoryEntry`
(evicting past capacity), and this holds in particular in the
same-destination no-op case, where the filesystem is untouched but the
queue still shrinks and the entry is still recorded. -/
theorem sort_pops_head_pushes_history (s : SorterState) (act : String) (src : Path)
    (rest : List Path) (s' : SorterState) (hq : s.images = src :: rest)
    (hok : sortAction s act = (s', false)) :
    s'.images = rest ∧
      s'.history = pushHistory s.history ⟨(dstDirFor s act).child src.name, src.parent, act⟩ ∧
      s'.history.length = min (s.history.length + 1) MAX_HISTORY ∧
      s'.history.getLast? = some ⟨(dstDirFor s act).child src.name, src.parent, act⟩ ∧
      ((dstDirFor s act).child src.name = src → s'.fs = s.fs) := by
  unfold sortAction at hok
  rw [hq] at hok
  dsimp only at hok
  rcases hmv : moveOp s.fs src (dstDirFor s act) with _ | r <;> rw [hmv] at hok
  · exact absurd (congrArg Prod.snd hok) (by simp)
  · have hdst : r.dst = (dstDirFor s act).child src.name := moveOp_dst hmv
    have hs := congrArg Prod.fst hok
    dsimp only at hs
    subst hs
    dsimp only
    rw [hdst]
    refine ⟨rfl, rfl, pushHistory_length _ _, pushHistory_getLast _ _, ?_⟩
    intro hsame
    have hnoop : moveOp s.fs src (dstDirFor s act) = some ⟨src, s.fs⟩ := by
      unfold moveOp
      rw [if_pos hsame, hsame]
    rw [hnoop] at hmv
    cases hmv
    rfl

def popDemoState : SorterState :=
  { class_dir := ["base", "cat"]
  , delete_dir := ["base", "delete", "cat"]
  , images := [["base", "cat", "x.jpg"], ["base", "cat", "y.jpg"]]
  , history := []
  , fs := [["base", "cat", "x.jpg"], ["base", "cat", "y.jpg"]] }

theorem sort_pops_head_pushes_history_inst :
    (sortAction popDemoState "keep").1.images = [["base", "cat", "y.jpg"]] ∧
      (sortAction popDemoState "keep").1.history.length =
        min (popDemoState.history.length + 1) MAX_HISTORY :=
  have h := sort_pops_head_pushes_history popDemoState "keep" ["base", "cat", "x.jpg"]
    [["base", "cat", "y.jpg"]] (sortAction popDemoState "keep").1 (by rfl) (by rfl)
  ⟨h.1, h.2.2.1⟩

-- ─────────────────────────────────────────────────────────────
-- moveOp success specification
-- ─────────────────────────────────────────────────────────────

theorem Path.child_ne_of_name_ne {d₁ d₂ : Path} {n₁ n₂ : String} (h : n₁ ≠ n₂) :
    d₁.child n₁ ≠ d₂.child n₂ :=
  fun hEq => h (Path.child_eq_child_iff.mp hEq).2

theorem Path.child_ne_nil (d : Path) (n : String) : d.child n ≠ [] := by
  simp [Path.child]

/-- When the source file exists and its name does not already carry the
`.txt` suffix, `_move` succeeds, returns `dst_dir/src.name`, and the moved
file is present at that destination afterwards. -/
theorem moveOp_spec (fs : FS) (src dstDir : Path) (hfs : src ∈ fs) (hne : src ≠ [])
    (hsuf : nameSuffix src.name ≠ ".txt") :
    ∃ fs' : FS, moveOp fs src dstDir = some ⟨dstDir.child src.name, fs'⟩ ∧
      dstDir.child src.name ∈ fs' := by
  have hn' : withSuffixName src.name ".txt" ≠ src.name := withSuffixName_txt_ne hsuf
  have hannName : (src.withSuffix ".txt").name = withSuffixName src.name ".txt" :=
    Path.name_child src.parent _
  by_cases hsame : dstDir.child src.name = src
  · refine ⟨fs, ?_, ?_⟩
    · unfold moveOp
      rw [if_pos hsame]
    · rw [hsame]; exact hfs
  · have hmf : moveFile fs src (dstDir.child src.name) =
        some (List.insert (dstDir.child src.name) (fs.erase src)) := by
      unfold moveFile
      rw [if_pos hfs]
    have hdmem : dstDir.child src.name ∈ List.insert (dstDir.child src.name) (fs.erase src) :=
      List.mem_insert_self _ _
    by_cases hann : src.withSuffix ".txt" ∈ List.insert (dstDir.child src.name) (fs.erase src)
    · have hmf2 : moveFile (List.insert (dstDir.child src.name) (fs.erase src))
          (src.withSuffix ".txt")
          (dstDir.child (src.withSuffix ".txt").name) =
          some (List.insert (dstDir.child (src.withSuffix ".txt").name)
            ((List.insert (dstDir.child src.name) (fs.erase src)).erase (src.withSuffix ".txt"))) := by
        unfold moveFile
        rw [if_pos hann]
      refine ⟨List.insert (dstDir.child (src.withSuffix ".txt").name)
          ((List.insert (dstDir.child src.name) (fs.erase src)).erase (src.withSuffix ".txt")),
        ?_, ?_⟩
      · unfold moveOp
        rw [if_neg hsame]
        simp only [Option.bind_eq_bind, hmf, Option.some_bind, if_pos hann, hmf2]
        rfl
      · have hda : dstDir.child src.name ≠ src.withSuffix ".txt" := by
          rw [Path.withSuffix_parent]
          exact Path.child_ne_of_name_ne (fun hEq => hn' hEq.symm)
        exact List.mem_insert_of_mem ((List.mem_erase_of_ne hda).mpr hdmem)
    · refine ⟨List.insert (dstDir.child src.name) (fs.erase src), ?_, ?_⟩
      · unfold moveOp
        rw [if_neg hsame]
        simp only [Option.bind_eq_bind, hmf, Option.some_bind, if_neg hann]
        rfl
      · exact hdmem

-- ─────────────────────────────────────────────────────────────
-- C1: state after a failed move during sort / undo
-- ─────────────────────────────────────────────────────────────

def undoFailState : SorterState :=
  { class_dir := ["base", "cat"]
  , delete_dir := ["base", "delete", "cat"]
  , images := []
  , history := [⟨["base", "cat", "keep", "x.jpg"], ["base", "cat"], "keep"⟩]
  , fs := [] }

/-- C1 counterexample: with one history entry whose recorded file has
vanished from disk, `_undo`'s move raises, yet the history entry has
already been popped — refuting "the history entry is not popped until the
move succeeds". -/
theorem undo_failure_pops_history_cex :
    (undoAction undoFailState).2 = true ∧
      (undoAction undoFailState).1.history = [] ∧
      undoFailState.history ≠ [] := by decide

/-- C1 (amended): when the physical move raises during sort, the engine
state is untouched (the image stays at the head of the queue, no history
entry is pushed); when it raises during undo, the queue and filesystem
are untouched but the history entry has already been popped before the
move was attempted. -/
theorem sort_undo_failure_state :
    (∀ (s : SorterState) (act : String) (s' : SorterState),
        sortAction s act = (s', true) → s' = s) ∧
    (∀ (s s' : SorterState), undoAction s = (s', true) →
        s'.images = s.images ∧ s'.fs = s.fs ∧ s'.history = s.history.dropLast) := by
  constructor
  · intro s act s' h
    unfold sortAction at h
    rcases hq : s.images with _ | ⟨src, rest⟩ <;> rw [hq] at h <;> dsimp only at h
    · exact absurd (congrArg Prod.snd h) (by simp)
    · rcases hmv : moveOp s.fs src (dstDirFor s act) with _ | r <;> rw [hmv] at h <;>
        dsimp only at h
      · exact (congrArg Prod.fst h).symm
      · exact absurd (congrArg Prod.snd h) (by simp)
  · intro s s' h
    unfold undoAction at h
    rcases hl : s.history.getLast? with _ | entry <;> rw [hl] at h <;> dsimp only at h
    · exact absurd (congrArg Prod.snd h) (by simp)
    · rcases hmv : moveOp s.fs entry.src entry.orig_parent with _ | r <;> rw [hmv] at h <;>
        dsimp only at h
      · have hs := (congrArg Prod.fst h).symm
        subst hs
        exact ⟨rfl, rfl, rfl⟩
      · exact absurd (congrArg Prod.snd h) (by simp)

def sortFailState : SorterState :=
  { class_dir := ["base", "cat"]
  , delete_dir := ["base", "delete", "cat"]
  , images := [["base", "cat", "x.jpg"]]
  , history := []
  , fs := [] }

theorem sort_undo_failure_state_inst :
    (sortAction sortFailState "keep").1 = sortFailState ∧
      (undoAction undoFailState).1.history = undoFailState.history.dropLast :=
  ⟨sort_undo_failure_state.1 sortFailState "keep" (sortAction sortFailState "keep").1 (by rfl),
   (sort_undo_failure_state.2 undoFailState (undoAction undoFailState).1 (by rfl)).2.2⟩

-- ─────────────────────────────────────────────────────────────
-- C2: sort/undo round trip
-- ─────────────────────────────────────────────────────────────

/-- C2: sorting the head image (file present, image-named) and then
undoing once restores the file to exactly its pre-sort path, re-inserts
that path at the front of the work queue (the queue is restored), and
the history stack shrinks by exactly one from its post-sort length. -/
theorem sort_undo_round_trip (s : SorterState) (act : String) (src : Path)
    (rest : List Path) (hq : s.images = src :: rest) (hfs : src ∈ s.fs)
    (hne : src ≠ []) (hsuf : nameSuffix src.name ≠ ".txt") :
    ∃ s1 s2 : SorterState,
      sortAction s act = (s1, false) ∧
      undoAction s1 = (s2, false) ∧
      s2.images = s.images ∧
      s2.images.head? = some src ∧
      s2.history.length + 1 = s1.history.length ∧
      src ∈ s2.fs := by
  have h20 : MAX_HISTORY = 20 := rfl
  obtain ⟨fs1, hmv1, hdst1⟩ := moveOp_spec s.fs src (dstDirFor s act) hfs hne hsuf
  refine ⟨{ s with
      fs := fs1
      history := pushHistory s.history ⟨(dstDirFor s act).child src.name, src.parent, act⟩
      images := rest }, ?_⟩
  have hdne : (dstDirFor s act).child src.name ≠ [] := Path.child_ne_nil _ _
  have hdsuf : nameSuffix ((dstDirFor s act).child src.name).name ≠ ".txt" := by
    rw [Path.name_child]
    exact hsuf
  obtain ⟨fs2, hmv2, hdst2⟩ :=
    moveOp_spec fs1 ((dstDirFor s act).child src.name) src.parent hdst1 hdne hdsuf
  have hback : src.parent.child ((dstDirFor s act).child src.name).name = src := by
    rw [Path.name_child]
    exact Path.parent_child_self hne
  rw [hback] at hmv2 hdst2
  refine ⟨{
      class_dir := s.class_dir
      delete_dir := s.delete_dir
      images := src :: rest
      history := (pushHistory s.history
          ⟨(dstDirFor s act).child src.name, src.parent, act⟩).dropLast
      fs := fs2 }, ?_, ?_, ?_, ?_, ?_, ?_⟩
  · unfold sortAction
    rw [hq]
    dsimp only
    rw [hmv1]
  · unfold undoAction
    rw [pushHistory_getLast]
    dsimp only
    rw [hmv2]
  · rw [hq]
  · rfl
  · have hlen := pushHistory_length s.history
      ⟨(dstDirFor s act).child src.name, src.parent, act⟩
    dsimp only
    rw [List.length_dropLast, hlen]
    omega
  · exact hdst2

def roundTripState : SorterState :=
  { class_dir := ["base", "cat"]
  , delete_dir := ["base", "delete", "cat"]
  , images := [["base", "cat", "x.jpg"]]
  , history := []
  , fs := [["base", "cat", "x.jpg"], ["base", "cat", "x.txt"]] }

theorem sort_undo_round_trip_inst :
    ∃ s1 s2 : SorterState,
      sortAction roundTripState "keep" = (s1, false) ∧
      undoAction s1 = (s2, false) ∧
      s2.images = roundTripState.images ∧
      s2.images.head? = some ["base", "cat", "x.jpg"] ∧
      s2.history.length + 1 = s1.history.length ∧
      ["base", "cat", "x.jpg"] ∈ s2.fs :=
  sort_undo_round_trip roundTripState "keep" ["base", "cat", "x.jpg"] []
    (by rfl) (by decide) (by decide) (by decide)

-- ─────────────────────────────────────────────────────────────
-- C3: bounded history over a run of sort actions
-- ─────────────────────────────────────────────────────────────

/-- Facts about a single successful sort action on a non-empty queue. -/
theorem sortAction_ok {s : SorterState} {act : String} {src : Path} {rest : List Path}
    {s₁ : SorterState} (hq : s.images = src :: rest) (hok : sortAction s act = (s₁, false)) :
    s₁.class_dir = s.class_dir ∧ s₁.delete_dir = s.delete_dir ∧ s₁.images = rest ∧
      s₁.history = pushHistory s.history ⟨(dstDirFor s act).child src.name, src.parent, act⟩ := by
  unfold sortAction at hok
  rw [hq] at hok
  dsimp only at hok
  rcases hmv : moveOp s.fs src (dstDirFor s act) with _ | r <;> rw [hmv] at hok
  · exact absurd (congrArg Prod.snd hok) (by simp)
  · have hdst : r.dst = (dstDirFor s act).child src.name := moveOp_dst hmv
    have hs := congrArg Prod.fst hok
    dsimp only at hs
    subst hs
    rw [hdst]
    exact ⟨rfl, rfl, rfl, rfl⟩

/-- `collections.deque` iterated append: folding entries into a bounded
history keeps exactly the most recent `MAX_HISTORY` of the combined
sequence. -/
theorem foldl_pushHistory (es : List HistoryEntry) :
    ∀ h : List HistoryEntry, h.length ≤ MAX_HISTORY →
      List.foldl pushHistory h es = (h ++ es).drop ((h ++ es).length - MAX_HISTORY) := by
  induction es with
  | nil =>
    intro h hle
    simp only [List.foldl_nil, List.append_nil]
    rw [Nat.sub_eq_zero_of_le hle, List.drop_zero]
  | cons e es ih =>
    intro h hle
    have h20 : MAX_HISTORY = 20 := rfl
    rw [List.foldl_cons]
    have hlen1 : (pushHistory h e).length ≤ MAX_HISTORY := by
      rw [pushHistory_length]
      omega
    rw [ih (pushHistory h e) hlen1, pushHistory_eq_drop h e]
    have hk : (h ++ [e]).length - MAX_HISTORY ≤ (h ++ [e]).length := Nat.sub_le _ _
    have hsplit : ((h ++ [e]) ++ es).drop ((h ++ [e]).length - MAX_HISTORY) =
        (h ++ [e]).drop ((h ++ [e]).length - MAX_HISTORY) ++ es := by
      rw [List.drop_append_eq_append_drop, Nat.sub_eq_zero_of_le hk, List.drop_zero]
    rw [← hsplit, List.drop_drop]
    have hEq : h ++ e :: es = (h ++ [e]) ++ es := by simp
    rw [hEq]
    congr 1
    simp only [List.length_drop, List.length_append, List.length_singleton]
    omega

def runSorts : SorterState → List String → Option SorterState
  | s, [] => some s
  | s, act :: acts =>
    match sortAction s act with
    | (s1, false) => runSorts s1 acts
    | (_, true) => none

/-- The history entry each successive sort action will record, computed
from the initial state: the i-th action `a` applied to the i-th queue
element `p` records `(dst_dir(a)/p.name, p.parent, a)`. -/
def plannedEntries (s : SorterState) (acts : List String) : List HistoryEntry :=
  (acts.zip s.images).map (fun q => ⟨(dstDirFor s q.1).child q.2.name, q.2.parent, q.1⟩)

theorem runSorts_history (acts : List String) :
    ∀ (s s' : SorterState), acts.length ≤ s.images.length →
      runSorts s acts = some s' →
      s'.history = List.foldl pushHistory s.history (plannedEntries s acts) ∧
        s'.images = s.images.drop acts.length := by
  induction acts with
  | nil =>
    intro s s' _ hrun
    cases hrun
    exact ⟨rfl, rfl⟩
  | cons act acts ih =>
    intro s s' hlen hrun
    rcases hq : s.images with _ | ⟨src, rest⟩
    · rw [hq] at hlen
      simp at hlen
    · unfold runSorts at hrun
      rcases hsort : sortAction s act with ⟨s1, b⟩
      rw [hsort] at hrun
      cases b
      · have hok := sortAction_ok hq hsort
        obtain ⟨hcd, hdd, himg, hhist⟩ := hok
        dsimp only at hrun
        have hlen1 : acts.length ≤ s1.images.length := by
          rw [himg]
          rw [hq] at hlen
          simp only [List.length_cons] at hlen
          omega
        obtain ⟨ihh, ihi⟩ := ih s1 s' hlen1 hrun
        have hplan : plannedEntries s (act :: acts) =
            ⟨(dstDirFor s act).child src.name, src.parent, act⟩ :: plannedEntries s1 acts := by
          unfold plannedEntries
          rw [hq, himg]
          have hdir : ∀ a : String, dstDirFor s1 a = dstDirFor s a := by
            intro a
            unfold dstDirFor
            rw [hcd, hdd]
          simp only [List.zip_cons_cons, List.map_cons]
          congr 1
          apply List.map_congr_left
          intro q _
          dsimp only
          rw [hdir]
        refine ⟨?_, ?_⟩
        · rw [hplan, List.foldl_cons, ← hhist]
          exact ihh
        · rw [ihi, himg]
          simp [hq]
      · dsimp only at hrun
        cases hrun

/-- C3: starting from an empty history, a run of `N > MAX_HISTORY`
successful sort actions leaves exactly `MAX_HISTORY` (20) entries in
history, and those are precisely the records of the most recent
`MAX_HISTORY` moves (the oldest were silently discarded). -/
theorem history_bounded_after_sorts (s : SorterState) (acts : List String)
    (s' : SorterState) (hhist : s.history = []) (hN : MAX_HISTORY < acts.length)
    (hlen : acts.length ≤ s.images.length) (hrun : runSorts s acts = some s') :
    s'.history.length = MAX_HISTORY ∧
      s'.history = (plannedEntries s acts).drop (acts.length - MAX_HISTORY) := by
  have h20 : MAX_HISTORY = 20 := rfl
  obtain ⟨hh, _⟩ := runSorts_history acts s s' hlen hrun
  have hplen : (plannedEntries s acts).length = acts.length := by
    unfold plannedEntries
    rw [List.length_map, List.length_zip acts s.images]
    omega
  rw [hhist] at hh
  rw [foldl_pushHistory (plannedEntries s acts) [] (by simp [MAX_HISTORY])] at hh
  simp only [List.nil_append] at hh
  rw [hplen] at hh
  refine ⟨?_, hh⟩
  rw [hh, List.length_drop, hplen]
  omega

def manyImgs : List Path :=
  [["b", "c", "aa.jpg"], ["b", "c", "ab.jpg"], ["b", "c", "ac.jpg"], ["b", "c", "ad.jpg"], ["b", "c", "ae.jpg"], ["b", "c", "ba.jpg"], ["b", "c", "bb.jpg"], ["b", "c", "bc.jpg"], ["b", "c", "bd.jpg"], ["b", "c", "be.jpg"], ["b", "c", "ca.jpg"], ["b", "c", "cb.jpg"], ["b", "c", "cc.jpg"], ["b", "c", "cd.jpg"], ["b", "c", "ce.jpg"], ["b", "c", "da.jpg"], ["b", "c", "db.jpg"], ["b", "c", "dc.jpg"], ["b", "c", "dd.jpg"], ["b", "c", "de.jpg"], ["b", "c", "ea.jpg"]]

def manyState : SorterState :=
  { class_dir := ["b", "c"]
  , delete_dir := ["b", "delete", "c"]
  , images := manyImgs
  , history := []
  , fs := manyImgs }

def manyResult : SorterState :=
  (runSorts manyState (List.replicate 21 "keep")).getD ⟨[], [], [], [], []⟩

theorem history_bounded_after_sorts_inst :
    manyResult.history.length = MAX_HISTORY ∧
      manyResult.history =
        (plannedEntries manyState (List.replicate 21 "keep")).drop
          ((List.replicate 21 "keep").length - MAX_HISTORY) :=
  history_bounded_after_sorts manyState (List.replicate 21 "keep") manyResult
    (by rfl) (by decide) (by decide) (by rfl)

-- ─────────────────────────────────────────────────────────────
-- C4: chunking in ProjectPage._populate
-- ─────────────────────────────────────────────────────────────

/-- projectpage.py `self.CHUNK_SIZE = 2000`. -/
def CHUNK_SIZE : Nat := 2000

/-- The comprehension `[unsorted_imgs[i:i+C] for i in range(0, total, C)]`:
`range(0, total, C)` has `ceil(total/C)` elements and the slice `l[i:i+C]`
is `take C (drop i l)`. -/
def sliceChunks {α : Type} (C : Nat) (l : List α) : List (List α) :=
  (List.range ((l.length + C - 1) / C)).map (fun i => (l.drop (i * C)).take C)

/-- `num_chunks = (total + C - 1)//C if total else 1` (projectpage.py line 250). -/
def numChunks (C total : Nat) : Nat :=
  if total ≠ 0 then (total + C - 1) / C else 1

/-- Chunk computation of `ProjectPage._populate` (lines 251-253): the
slice comprehension, with `[[]]` substituted when it is empty. -/
def populateChunks {α : Type} [DecidableEq α] (C : Nat) (l : List α) : List (List α) :=
  if sliceChunks C l = [] then [[]] else sliceChunks C l

theorem sliceChunks_nil {α : Type} {C : Nat} (hC : 0 < C) :
    sliceChunks C ([] : List α) = [] := by
  unfold sliceChunks
  have : (([] : List α).length + C - 1) / C = 0 :=
    Nat.div_eq_of_lt (by simp; omega)
  rw [this]
  rfl

theorem sliceChunks_cons {α : Type} {C : Nat} (hC : 0 < C) {l : List α} (hl : l ≠ []) :
    sliceChunks C l = l.take C :: sliceChunks C (l.drop C) := by
  have hn : 0 < l.length := List.length_pos.mpr hl
  have hceil : (l.length + C - 1) / C = ((l.drop C).length + C - 1) / C + 1 := by
    rw [List.length_drop]
    rcases le_or_lt l.length C with hle | hlt
    · have h1 : (l.length - C + C - 1) / C = 0 := Nat.div_eq_of_lt (by omega)
      have h2 : (l.length + C - 1) / C = 1 :=
        Nat.div_eq_of_lt_le (by omega) (by omega)
      omega
    · have : l.length + C - 1 = (l.length - C + C - 1) + C := by omega
      rw [this, Nat.add_div_right _ hC]
  unfold sliceChunks
  rw [hceil, List.range_succ_eq_map, List.map_cons, List.map_map]
  congr 1
  · simp
  · apply List.map_congr_left
    intro i _
    simp only [Function.comp_apply, List.drop_drop]
    congr 2
    simp [Nat.succ_mul]
    omega

theorem sliceChunks_flatten {α : Type} {C : Nat} (hC : 0 < C) :
    ∀ (n : Nat) (l : List α), l.length ≤ n → (sliceChunks C l).flatten = l := by
  intro n
  induction n with
  | zero =>
    intro l hl
    have : l = [] := List.eq_nil_of_length_eq_zero (Nat.le_zero.mp hl)
    subst this
    rw [sliceChunks_nil hC]
    rfl
  | succ n ih =>
    intro l hl
    rcases eq_or_ne l [] with rfl | hne
    · rw [sliceChunks_nil hC]
      rfl
    · rw [sliceChunks_cons hC hne, List.flatten_cons,
        ih (l.drop C) (by rw [List.length_drop]; omega)]
      exact List.take_append_drop C l

theorem sliceChunks_dropLast_full {α : Type} {C : Nat} (hC : 0 < C) :
    ∀ (n : Nat) (l : List α), l.length ≤ n →
      ∀ c ∈ (sliceChunks C l).dropLast, c.length = C := by
  intro n
  induction n with
  | zero =>
    intro l hl c hc
    have : l = [] := List.eq_nil_of_length_eq_zero (Nat.le_zero.mp hl)
    subst this
    rw [sliceChunks_nil hC] at hc
    simp at hc
  | succ n ih =>
    intro l hl c hc
    rcases eq_or_ne l [] with rfl | hne
    · rw [sliceChunks_nil hC] at hc
      simp at hc
    · rw [sliceChunks_cons hC hne] at hc
      rcases eq_or_ne (sliceChunks C (l.drop C)) [] with hdnil | hdne
      · rw [hdnil] at hc
        simp at hc
      · rw [List.dropLast_cons_of_ne_nil hdne] at hc
        rcases List.mem_cons.mp hc with rfl | hc2
        · have hdrop : l.drop C ≠ [] := by
            intro hx
            rw [hx, sliceChunks_nil hC] at hdne
            exact hdne rfl
          have : C < l.length := by
            have := List.length_pos.mpr hdrop
            rw [List.length_drop] at this
            omega
          rw [List.length_take]
          omega
        · exact ih (l.drop C) (by rw [List.length_drop]; omega) c hc2

theorem sliceChunks_length {α : Type} (C : Nat) (l : List α) :
    (sliceChunks C l).length = (l.length + C - 1) / C := by
  unfold sliceChunks
  rw [List.length_map, List.length_range]

/-- C4: for every unsorted-image list, the chunks computed by
`ProjectPage._populate` concatenate back to exactly the original list (no
duplicates, no omissions), every chunk except possibly the last has
exactly `CHUNK_SIZE` elements, and the number of chunks is
`ceil(total / CHUNK_SIZE)` with a minimum of one chunk when the list is
empty — which also equals the separately computed `num_chunks`. -/
theorem chunk_partition_complete (l : List Path) :
    (populateChunks CHUNK_SIZE l).flatten = l ∧
      ((populateChunks CHUNK_SIZE l).dropLast.all (fun c => c.length == CHUNK_SIZE)) = true ∧
      (populateChunks CHUNK_SIZE l).length = numChunks CHUNK_SIZE l.length ∧
      (populateChunks CHUNK_SIZE l).length = max ((l.length + CHUNK_SIZE - 1) / CHUNK_SIZE) 1 := by
  have hC : 0 < CHUNK_SIZE := by decide
  have hC2000 : CHUNK_SIZE = 2000 := rfl
  unfold populateChunks
  rcases eq_or_ne l [] with rfl | hne
  · rw [sliceChunks_nil hC, if_pos rfl]
    refine ⟨rfl, rfl, rfl, rfl⟩
  · have hsne : sliceChunks CHUNK_SIZE l ≠ [] := by
      rw [sliceChunks_cons hC hne]
      simp
    rw [if_neg hsne]
    have hn : 0 < l.length := List.length_pos.mpr hne
    refine ⟨sliceChunks_flatten hC l.length l le_rfl, ?_, ?_, ?_⟩
    · rw [List.all_eq_true]
      intro c hc
      rw [beq_iff_eq]
      exact sliceChunks_dropLast_full hC l.length l le_rfl c hc
    · rw [sliceChunks_length, numChunks, if_pos (by omega)]
    · rw [sliceChunks_length]
      have h1 : 1 ≤ (l.length + CHUNK_SIZE - 1) / CHUNK_SIZE :=
        (Nat.le_div_iff_mul_le hC).mpr (by omega)
      omega

def chunkDemo : List Path := [["b", "c", "a.jpg"], ["b", "c", "b.jpg"], ["b", "c", "c.jpg"]]

theorem chunk_partition_complete_inst :
    (populateChunks CHUNK_SIZE chunkDemo).flatten = chunkDemo ∧
      ((populateChunks CHUNK_SIZE chunkDemo).dropLast.all
        (fun c => c.length == CHUNK_SIZE)) = true ∧
      (populateChunks CHUNK_SIZE chunkDemo).length = numChunks CHUNK_SIZE chunkDemo.length ∧
      (populateChunks CHUNK_SIZE chunkDemo).length =
        max ((chunkDemo.length + CHUNK_SIZE - 1) / CHUNK_SIZE) 1 :=
  chunk_partition_complete chunkDemo

-- ─────────────────────────────────────────────────────────────
-- C6: load_pixmap (utils.py lines 69-99)
-- ─────────────────────────────────────────────────────────────

/-- An in-memory bitmap: its pixel dimensions and the marker drawn on it
(`"ERROR"` for the painted placeholder, arbitrary tags for real images). -/
structure Pixmap where
  width : Nat
  height : Nat
  tag : String
deriving DecidableEq, Repr

/-- `QPixmap(200, 200)` filled dark-gray with `"ERROR"` drawn on it. -/
def errorPlaceholder : Pixmap := ⟨200, 200, "ERROR"⟩

/-- The `QPixmapCache`, as an association list keyed by `str(path)`. -/
abbrev PixCache := List (String × Pixmap)

/-- The decode part of `load_pixmap`: raise (→ placeholder) when the path
does not exist, decode otherwise, substituting the placeholder when the
decoder yields a null pixmap (`dec p = none`). -/
def decodeResult (fileExists : Path → Bool) (dec : Path → Option Pixmap) (p : Path) : Pixmap :=
  if fileExists p then
    match dec p with
    | some q => q
    | none => errorPlaceholder
  else errorPlaceholder

/-- `utils.load_pixmap(path)` over an explicit cache: look up
`str(path)`; on a miss decode (or build the placeholder) and insert the
result under that key.  The third component records whether a decode
attempt was made (`false` = served from cache).  The `lru_cache`
decorator adds a second memo layer keyed by the same path and so does not
change the returned value. -/
def load_pixmap (fileExists : Path → Bool) (dec : Path → Option Pixmap)
    (cache : PixCache) (p : Path) : Pixmap × PixCache × Bool :=
  match cache.lookup (pathStr p) with
  | some pm => (pm, cache, false)
  | none =>
    (decodeResult fileExists dec p,
      (pathStr p, decodeResult fileExists dec p) :: cache, true)

/-- C6: `load_pixmap` is total (it never propagates a failure); on any
failure — missing file or undecodable image — with no cached entry it
returns the fixed 200×200 placeholder marked "ERROR"; and a second load
of the same path is served from the cache: it returns the identical
value, leaves the cache unchanged, and makes no second decode attempt. -/
theorem load_pixmap_placeholder_and_cache :
    (∀ (fileExists : Path → Bool) (dec : Path → Option Pixmap) (cache : PixCache) (p : Path),
        cache.lookup (pathStr p) = none →
        fileExists p = false ∨ dec p = none →
        (load_pixmap fileExists dec cache p).1 = errorPlaceholder ∧
          (load_pixmap fileExists dec cache p).1.width = 200 ∧
          (load_pixmap fileExists dec cache p).1.height = 200 ∧
          (load_pixmap fileExists dec cache p).1.tag = "ERROR") ∧
    (∀ (fileExists : Path → Bool) (dec : Path → Option Pixmap) (cache : PixCache) (p : Path),
        load_pixmap fileExists dec (load_pixmap fileExists dec cache p).2.1 p =
          ((load_pixmap fileExists dec cache p).1,
            (load_pixmap fileExists dec cache p).2.1, false)) := by
  constructor
  · intro fileExists dec cache p hmiss hfail
    have hdec : decodeResult fileExists dec p = errorPlaceholder := by
      unfold decodeResult
      rcases hfail with hf | hf
      · rw [hf]
        rfl
      · rcases hex : fileExists p with _ | _
        · rfl
        · rw [hf]
          rfl
    unfold load_pixmap
    rw [hmiss]
    dsimp only
    rw [hdec]
    exact ⟨rfl, rfl, rfl, rfl⟩
  · intro fileExists dec cache p
    rcases hl : cache.lookup (pathStr p) with _ | pm
    · have h1 : load_pixmap fileExists dec cache p =
          (decodeResult fileExists dec p,
            (pathStr p, decodeResult fileExists dec p) :: cache, true) := by
        unfold load_pixmap
        rw [hl]
      rw [h1]
      unfold load_pixmap
      have : ((pathStr p, decodeResult fileExists dec p) :: cache).lookup (pathStr p) =
          some (decodeResult fileExists dec p) := by
        simp [List.lookup]
      rw [this]
    · have h1 : load_pixmap fileExists dec cache p = (pm, cache, false) := by
        unfold load_pixmap
        rw [hl]
      rw [h1]
      unfold load_pixmap
      rw [hl]

theorem load_pixmap_placeholder_and_cache_inst :
    ((load_pixmap (fun _ => false) (fun _ => none) [] ["img", "gone.png"]).1 = errorPlaceholder ∧
      (load_pixmap (fun _ => false) (fun _ => none) [] ["img", "gone.png"]).1.width = 200 ∧
      (load_pixmap (fun _ => false) (fun _ => none) [] ["img", "gone.png"]).1.height = 200 ∧
      (load_pixmap (fun _ => false) (fun _ => none) [] ["img", "gone.png"]).1.tag = "ERROR") ∧
    load_pixmap (fun _ => false) (fun _ => none)
        (load_pixmap (fun _ => false) (fun _ => none) [] ["img", "gone.png"]).2.1
        ["img", "gone.png"] =
      ((load_pixmap (fun _ => false) (fun _ => none) [] ["img", "gone.png"]).1,
        (load_pixmap (fun _ => false) (fun _ => none) [] ["img", "gone.png"]).2.1, false) :=
  ⟨load_pixmap_placeholder_and_cache.1 (fun _ => false) (fun _ => none) [] ["img", "gone.png"]
      (by rfl) (Or.inl rfl),
    load_pixmap_placeholder_and_cache.2 (fun _ => false) (fun _ => none) [] ["img", "gone.png"]⟩

-- ─────────────────────────────────────────────────────────────
-- C7: sidecar co-movement
-- ─────────────────────────────────────────────────────────────

theorem nodup_insert_fs {l : FS} (h : l.Nodup) (a : Path) : (List.insert a l).Nodup := by
  unfold List.insert
  split
  · exact h
  · rename_i hc
    exact List.Nodup.cons (by simpa using hc) h

/-- C7: sorting an image that has a same-basename `.txt` sidecar (both
files on disk, destination directory distinct from the source directory)
succeeds and leaves both the image and the sidecar present in the
destination directory and absent from the source directory. -/
theorem sidecar_co_movement (s : SorterState) (act : String) (srcDir : Path) (nm : String)
    (rest : List Path) (hq : s.images = srcDir.child nm :: rest)
    (hfs : srcDir.child nm ∈ s.fs)
    (hann : (srcDir.child nm).withSuffix ".txt" ∈ s.fs)
    (hnodup : s.fs.Nodup)
    (hsuf : nameSuffix nm ≠ ".txt")
    (hdir : dstDirFor s act ≠ srcDir) :
    ∃ s' : SorterState, sortAction s act = (s', false) ∧
      (dstDirFor s act).child nm ∈ s'.fs ∧
      (dstDirFor s act).child (withSuffixName nm ".txt") ∈ s'.fs ∧
      srcDir.child nm ∉ s'.fs ∧
      (srcDir.child nm).withSuffix ".txt" ∉ s'.fs := by
  have hname : (srcDir.child nm).name = nm := Path.name_child _ _
  have hparent : (srcDir.child nm).parent = srcDir := Path.parent_child _ _
  have hannEq : (srcDir.child nm).withSuffix ".txt" =
      srcDir.child (withSuffixName nm ".txt") := by
    rw [Path.withSuffix_parent, hparent, hname]
  have hn' : withSuffixName nm ".txt" ≠ nm := by
    rw [← hname] at hsuf ⊢
    exact withSuffixName_txt_ne hsuf
  have hsame : ¬((dstDirFor s act).child (srcDir.child nm).name = srcDir.child nm) := by
    rw [hname]
    intro hEq
    exact hdir (Path.child_eq_child_iff.mp hEq).1
  have hmf1 : moveFile s.fs (srcDir.child nm)
      ((dstDirFor s act).child (srcDir.child nm).name) =
      some (List.insert ((dstDirFor s act).child (srcDir.child nm).name)
        (s.fs.erase (srcDir.child nm))) := by
    unfold moveFile
    rw [if_pos hfs]
  have hannfs1 : (srcDir.child nm).withSuffix ".txt" ∈
      List.insert ((dstDirFor s act).child (srcDir.child nm).name)
        (s.fs.erase (srcDir.child nm)) := by
    apply List.mem_insert_of_mem
    rw [hannEq]
    refine (List.mem_erase_of_ne ?_).mpr (hannEq ▸ hann)
    exact Path.child_ne_of_name_ne hn'
  have hmf2 : moveFile
      (List.insert ((dstDirFor s act).child (srcDir.child nm).name)
        (s.fs.erase (srcDir.child nm)))
      ((srcDir.child nm).withSuffix ".txt")
      ((dstDirFor s act).child ((srcDir.child nm).withSuffix ".txt").name) =
      some (List.insert ((dstDirFor s act).child ((srcDir.child nm).withSuffix ".txt").name)
        ((List.insert ((dstDirFor s act).child (srcDir.child nm).name)
          (s.fs.erase (srcDir.child nm))).erase ((srcDir.child nm).withSuffix ".txt"))) := by
    unfold moveFile
    rw [if_pos hannfs1]
  have hmv : moveOp s.fs (srcDir.child nm) (dstDirFor s act) =
      some ⟨(dstDirFor s act).child (srcDir.child nm).name,
        List.insert ((dstDirFor s act).child ((srcDir.child nm).withSuffix ".txt").name)
          ((List.insert ((dstDirFor s act).child (srcDir.child nm).name)
            (s.fs.erase (srcDir.child nm))).erase ((srcDir.child nm).withSuffix ".txt"))⟩ := by
    unfold moveOp
    rw [if_neg hsame]
    simp only [Option.bind_eq_bind, hmf1, Option.some_bind, if_pos hannfs1, hmf2]
    rfl
  have hannName : ((srcDir.child nm).withSuffix ".txt").name = withSuffixName nm ".txt" := by
    rw [hannEq, Path.name_child]
  have hsort : sortAction s act = ((sortAction s act).1, false) := by
    unfold sortAction
    rw [hq]
    dsimp only
    rw [hmv]
  have hfs' : (sortAction s act).1.fs =
      List.insert ((dstDirFor s act).child ((srcDir.child nm).withSuffix ".txt").name)
        ((List.insert ((dstDirFor s act).child (srcDir.child nm).name)
          (s.fs.erase (srcDir.child nm))).erase ((srcDir.child nm).withSuffix ".txt")) := by
    unfold sortAction
    rw [hq]
    dsimp only
    rw [hmv]
  rw [hname, hannName] at hfs'
  refine ⟨(sortAction s act).1, hsort, ?_, ?_, ?_, ?_⟩
  · rw [hfs']
    apply List.mem_insert_of_mem
    refine (List.mem_erase_of_ne ?_).mpr (List.mem_insert_self _ _)
    rw [hannEq]
    exact Path.child_ne_of_name_ne (fun h => hn' h.symm)
  · rw [hfs']
    exact List.mem_insert_self _ _
  · rw [hfs']
    intro hmem
    rcases List.mem_insert_iff.mp hmem with hcase | hcase
    · exact hn' (Path.child_eq_child_iff.mp hcase).2.symm
    · have hmem2 := List.mem_of_mem_erase hcase
      rcases List.mem_insert_iff.mp hmem2 with hcase2 | hcase2
      · exact hdir (Path.child_eq_child_iff.mp hcase2).1.symm
      · exact (List.Nodup.mem_erase_iff hnodup |>.mp hcase2).1 rfl
  · rw [hfs']
    intro hmem
    have hfs1nodup : (List.insert ((dstDirFor s act).child nm)
        (s.fs.erase (srcDir.child nm))).Nodup := nodup_insert_fs (hnodup.erase _) _
    rcases List.mem_insert_iff.mp hmem with hcase | hcase
    · rw [hannEq] at hcase
      exact hdir (Path.child_eq_child_iff.mp hcase).1.symm
    · exact (List.Nodup.mem_erase_iff hfs1nodup |>.mp hcase).1 rfl

def sidecarState : SorterState :=
  { class_dir := ["base", "cat"]
  , delete_dir := ["base", "delete", "cat"]
  , images := [["base", "cat", "x.jpg"]]
  , history := []
  , fs := [["base", "cat", "x.jpg"], ["base", "cat", "x.txt"]] }

theorem sidecar_co_movement_inst :
    ∃ s' : SorterState, sortAction sidecarState "keep" = (s', false) ∧
      (dstDirFor sidecarState "keep").child "x.jpg" ∈ s'.fs ∧
      (dstDirFor sidecarState "keep").child (withSuffixName "x.jpg" ".txt") ∈ s'.fs ∧
      Path.child ["base", "cat"] "x.jpg" ∉ s'.fs ∧
      (Path.child ["base", "cat"] "x.jpg").withSuffix ".txt" ∉ s'.fs :=
  sidecar_co_movement sidecarState "keep" ["base", "cat"] "x.jpg" []
    (by rfl) (by decide) (by decide) (by decide) (by decide) (by decide)

-- ─────────────────────────────────────────────────────────────
-- C9: initial work queue ordering (SorterPage._unprocessed)
-- ─────────────────────────────────────────────────────────────

/-- The sort key of `_unprocessed`:
`max(load_pixmap(p).width(), load_pixmap(p).height())`, with the decoded
dimensions supplied by the oracle `dims`. -/
def maxDim (dims : Path → Nat × Nat) (p : Path) : Nat := max (dims p).1 (dims p).2

/-- The generator filter of `_unprocessed` (sorterpage.py lines 254-260):
keep files whose lowered suffix is in `IMG_EXTS`, skipping paths whose
first component relative to the class directory is `keep` or `review`. -/
def unprocKeep (classDir : Path) (p : Path) : Bool :=
  decide (strLower (nameSuffix p.name) ∈ IMG_EXTS) &&
    !(decide (p.drop classDir.length ≠ ([] : List String)) &&
      decide ((p.drop classDir.length).headD "" ∈ (["keep", "review"] : List String)))

/-- `SorterPage._unprocessed` (lines 247-268): filter the enumerated
files, take the first `CHUNK_SIZE`, and sort by descending
`max(width, height)`.  Python's `list.sort(key=..., reverse=True)` is a
stable descending sort, which is exactly `List.insertionSort` with the
relation "key of the left argument is at least the key of the right". -/
def unprocQueue (classDir : Path) (entries : List Path) (dims : Path → Nat × Nat) : List Path :=
  List.insertionSort (fun a b => maxDim dims b ≤ maxDim dims a)
    ((entries.filter (unprocKeep classDir)).take CHUNK_SIZE)

def catEntries : List Path :=
  [["base", "cat", "a.jpg"], ["base", "cat", "b.jpg"], ["base", "cat", "c.jpg"]]

def catDims : Path → Nat × Nat := fun p =>
  if p.name = "a.jpg" then (800, 600)
  else if p.name = "b.jpg" then (200, 200)
  else (1920, 1080)

/-- C9: the initial work queue is ordered by descending
`max(width, height)` (largest dimension first) for every input, and in
the three-image scenario `a.jpg (800x600)`, `b.jpg (200x200)`,
`c.jpg (1920x1080)` the queue after loading is `[c.jpg, a.jpg, b.jpg]`. -/
theorem queue_sorted_desc_maxdim :
    (∀ (classDir : Path) (entries : List Path) (dims : Path → Nat × Nat),
      List.Sorted (fun a b => maxDim dims b ≤ maxDim dims a)
        (unprocQueue classDir entries dims)) ∧
    unprocQueue ["base", "cat"] catEntries catDims =
      [["base", "cat", "c.jpg"], ["base", "cat", "a.jpg"], ["base", "cat", "b.jpg"]] := by
  constructor
  · intro classDir entries dims
    haveI : IsTotal Path (fun a b => maxDim dims b ≤ maxDim dims a) :=
      ⟨fun a b => le_total _ _⟩
    haveI : IsTrans Path (fun a b => maxDim dims b ≤ maxDim dims a) :=
      ⟨fun _ _ _ hab hbc => le_trans hbc hab⟩
    exact List.sorted_insertionSort _ _
  · decide

theorem queue_sorted_desc_maxdim_inst :
    List.Sorted (fun a b => maxDim catDims b ≤ maxDim catDims a)
      (unprocQueue ["base", "cat"] catEntries catDims) :=
  queue_sorted_desc_maxdim.1 ["base", "cat"] catEntries catDims

-- ─────────────────────────────────────────────────────────────
-- C5: gather_images (utils.py lines 16-66)
-- ─────────────────────────────────────────────────────────────

/-- A directory tree as seen by `os.scandir`.  Each entry carries an `ok`
flag modelling accessibility: a `false` directory is one whose `scandir`
raises (`PermissionError`, vanished, not-a-directory, non-existent), a
`false` file is one whose per-entry inspection raises.  Those exceptions
are absorbed by the source's `try/except` blocks, so the model functions
are total. -/
inductive FSTree where
  | file (nm : String) (ok : Bool)
  | dir (nm : String) (ok : Bool) (children : List FSTree)

/-- The directory deny rule (utils.py lines 48-51): skip names that start
with a dot, and the fixed lowercase denylist. -/
def skipDirName (nm : String) : Bool :=
  decide ((strLower nm).toList.headD ' ' = '.') ||
    decide (strLower nm ∈ (["temp", "tmp", "cache", "appdata", "localcache"] : List String))

/-- `entry_path.suffix.lower() in IMG_EXTS` (utils.py line 45). -/
def isImgFile (nm : String) : Bool := decide (strLower (nameSuffix nm) ∈ IMG_EXTS)

/-- `if limit and len(images) >= limit` (utils.py line 38): a falsy limit
(`None` or `0`) never stops the scan. -/
def limitHit (lim : Option Nat) (cnt : Nat) : Bool :=
  match lim with
  | none => false
  | some l => decide (l ≠ 0) && decide (l ≤ cnt)

mutual

/-- `_scan_directory(path, current_depth)` (utils.py lines 30-58): return
unchanged past the depth bound or when `scandir` raises, otherwise walk
the entries. -/
def scanDir (md : Nat) (lim : Option Nat) : FSTree → Path → Nat → List Path → List Path
  | .file _ _, _, _, acc => acc
  | .dir _ ok children, cur, depth, acc =>
    if md < depth then acc
    else if ok then scanChildren md lim children cur depth acc
    else acc

/-- The `for entry in entries` loop (utils.py lines 37-55): check the
limit before each entry; append accessible image files; recurse into
accessible non-skipped directories while `current_depth < max_depth`;
skip entries whose inspection raises. -/
def scanChildren (md : Nat) (lim : Option Nat) : List FSTree → Path → Nat → List Path → List Path
  | [], _, _, acc => acc
  | e :: rest, cur, depth, acc =>
    if limitHit lim acc.length then acc
    else
      match e with
      | .file nm ok =>
        scanChildren md lim rest cur depth
          (if ok && isImgFile nm then acc ++ [cur.child nm] else acc)
      | .dir nm ok children =>
        scanChildren md lim rest cur depth
          (if depth < md && !skipDirName nm then
            scanDir md lim (.dir nm ok children) (cur.child nm) (depth + 1) acc
          else acc)

end

/-- `utils.gather_images(directory, max_depth, limit)`: scan from depth 0
with an empty accumulator.  A non-existent or inaccessible root is a
root node with `ok = false` (both return `[]`). -/
def gather_images (md : Nat) (lim : Option Nat) (root : FSTree) (rootPath : Path) : List Path :=
  scanDir md lim root rootPath 0 []

theorem scanChildren_limitHit (md : Nat) (lim : Option Nat) (l : List FSTree) (cur : Path)
    (depth : Nat) (acc : List Path) (h : limitHit lim acc.length = true) :
    scanChildren md lim l cur depth acc = acc := by
  cases l with
  | nil => rw [scanChildren]
  | cons e rest =>
    cases e with
    | file nm ok => rw [scanChildren, if_pos h]
    | dir nm ok ch => rw [scanChildren, if_pos h]

theorem scanDir_inaccessible (md : Nat) (lim : Option Nat) (nm : String) (ch : List FSTree)
    (cur : Path) (depth : Nat) (acc : List Path) :
    scanDir md lim (.dir nm false ch) cur depth acc = acc := by
  rw [scanDir]
  split
  · rfl
  · simp

/-- The accumulator update performed for one entry of the scan loop. -/
def stepAcc (md : Nat) (lim : Option Nat) : FSTree → Path → Nat → List Path → List Path
  | .file nm ok, cur, _, acc => if ok && isImgFile nm then acc ++ [cur.child nm] else acc
  | .dir nm ok children, cur, depth, acc =>
    if depth < md && !skipDirName nm then
      scanDir md lim (.dir nm ok children) (cur.child nm) (depth + 1) acc
    else acc

theorem scanChildren_cons (md : Nat) (lim : Option Nat) (e : FSTree) (l : List FSTree)
    (cur : Path) (depth : Nat) (acc : List Path) (h : limitHit lim acc.length = false) :
    scanChildren md lim (e :: l) cur depth acc =
      scanChildren md lim l cur depth (stepAcc md lim e cur depth acc) := by
  cases e with
  | file nm ok =>
    rw [scanChildren, h, stepAcc]
    simp only [Bool.false_eq_true, if_false]
  | dir nm ok ch =>
    rw [scanChildren, h, stepAcc]
    simp only [Bool.false_eq_true, if_false]

theorem stepAcc_dir_inaccessible (md : Nat) (lim : Option Nat) (nm : String)
    (ch : List FSTree) (cur : Path) (depth : Nat) (acc : List Path) :
    stepAcc md lim (.dir nm false ch) cur depth acc = acc := by
  rw [stepAcc]
  split
  · exact scanDir_inaccessible md lim nm ch _ _ acc
  · rfl

theorem stepAcc_file_inaccessible (md : Nat) (lim : Option Nat) (nm : String)
    (cur : Path) (depth : Nat) (acc : List Path) :
    stepAcc md lim (.file nm false) cur depth acc = acc := by
  rw [stepAcc]
  simp

theorem scanChildren_skip (md : Nat) (lim : Option Nat) (e : FSTree)
    (he : ∀ (cur : Path) (depth : Nat) (acc : List Path), stepAcc md lim e cur depth acc = acc) :
    ∀ (xs ys : List FSTree) (cur : Path) (depth : Nat) (acc : List Path),
      scanChildren md lim (xs ++ e :: ys) cur depth acc =
        scanChildren md lim (xs ++ ys) cur depth acc := by
  intro xs
  induction xs with
  | nil =>
    intro ys cur depth acc
    simp only [List.nil_append]
    by_cases hlim : limitHit lim acc.length = true
    · rw [scanChildren_limitHit md lim _ cur depth acc hlim,
        scanChildren_limitHit md lim ys cur depth acc hlim]
    · have hlim' : limitHit lim acc.length = false := by simpa using hlim
      rw [scanChildren_cons md lim e ys cur depth acc hlim', he]
  | cons x xs ih =>
    intro ys cur depth acc
    simp only [List.cons_append]
    by_cases hlim : limitHit lim acc.length = true
    · rw [scanChildren_limitHit md lim _ cur depth acc hlim,
        scanChildren_limitHit md lim _ cur depth acc hlim]
    · have hlim' : limitHit lim acc.length = false := by simpa using hlim
      rw [scanChildren_cons md lim x _ cur depth acc hlim',
        scanChildren_cons md lim x _ cur depth acc hlim']
      exact ih ys cur depth _

mutual

theorem scanDir_bound (md : Nat) (lim : Option Nat) :
    ∀ (t : FSTree) (cur : Path) (depth : Nat) (acc : List Path) (p : Path),
      depth ≤ md → p ∈ scanDir md lim t cur depth acc →
      p ∈ acc ∨ p.length + depth ≤ cur.length + md + 1
  | .file nm ok, cur, depth, acc, p, hd, hp => by
    rw [scanDir] at hp
    exact Or.inl hp
  | .dir nm ok children, cur, depth, acc, p, hd, hp => by
    rw [scanDir] at hp
    split at hp
    · exact Or.inl hp
    · split at hp
      · exact scanChildren_bound md lim children cur depth acc p hd hp
      · exact Or.inl hp

theorem scanChildren_bound (md : Nat) (lim : Option Nat) :
    ∀ (l : List FSTree) (cur : Path) (depth : Nat) (acc : List Path) (p : Path),
      depth ≤ md → p ∈ scanChildren md lim l cur depth acc →
      p ∈ acc ∨ p.length + depth ≤ cur.length + md + 1
  | [], cur, depth, acc, p, hd, hp => by
    rw [scanChildren] at hp
    exact Or.inl hp
  | .file nm ok :: rest, cur, depth, acc, p, hd, hp => by
    rw [scanChildren] at hp
    split at hp
    · exact Or.inl hp
    · rcases scanChildren_bound md lim rest cur depth _ p hd hp with hin | hb
      · split at hin
        · rcases List.mem_append.mp hin with h1 | h1
          · exact Or.inl h1
          · right
            have hpe : p = cur.child nm := by simpa using h1
            subst hpe
            have hlen : (cur.child nm).length = cur.length + 1 := by
              simp [Path.child]
            rw [hlen]
            omega
        · exact Or.inl hin
      · exact Or.inr hb
  | .dir nm ok children :: rest, cur, depth, acc, p, hd, hp => by
    rw [scanChildren] at hp
    split at hp
    · exact Or.inl hp
    · rcases scanChildren_bound md lim rest cur depth _ p hd hp with hin | hb
      · split at hin
        · rename_i hcond
          have hdm : depth < md := by
            simp only [Bool.and_eq_true, decide_eq_true_eq] at hcond
            exact hcond.1
          rcases scanDir_bound md lim (.dir nm ok children) (cur.child nm) (depth + 1) acc p
              (by omega) hin with h1 | h1
          · exact Or.inl h1
          · right
            have hlen : (cur.child nm).length = cur.length + 1 := by
              simp [Path.child]
            rw [hlen] at h1
            omega
        · exact Or.inl hin
      · exact Or.inr hb

end

/-- C5: the scan is a total function (absorbed exceptions: it cannot
raise); no returned image path lies deeper than `max_depth` directories
below the root (paths have at most `rootPath.length + max_depth + 1`
components, i.e. directories beyond the bound are not descended into);
and an inaccessible entry — a subdirectory whose `scandir` raises or a
vanished file — is skipped without affecting the images collected from
the accessible entries around it. -/
theorem scan_depth_bound_and_skip :
    (∀ (md : Nat) (lim : Option Nat) (root : FSTree) (rootPath : Path) (p : Path),
        p ∈ gather_images md lim root rootPath →
        p.length ≤ rootPath.length + md + 1) ∧
    (∀ (md : Nat) (lim : Option Nat) (nm : String) (ch : List FSTree) (xs ys : List FSTree)
        (cur : Path) (depth : Nat) (acc : List Path),
        scanChildren md lim (xs ++ FSTree.dir nm false ch :: ys) cur depth acc =
          scanChildren md lim (xs ++ ys) cur depth acc) ∧
    (∀ (md : Nat) (lim : Option Nat) (nm : String) (xs ys : List FSTree)
        (cur : Path) (depth : Nat) (acc : List Path),
        scanChildren md lim (xs ++ FSTree.file nm false :: ys) cur depth acc =
          scanChildren md lim (xs ++ ys) cur depth acc) := by
  refine ⟨?_, ?_, ?_⟩
  · intro md lim root rootPath p hp
    rcases scanDir_bound md lim root rootPath 0 [] p (Nat.zero_le md) hp with h | h
    · simp at h
    · omega
  · intro md lim nm ch xs ys cur depth acc
    exact scanChildren_skip md lim _ (fun c d a => stepAcc_dir_inaccessible md lim nm ch c d a)
      xs ys cur depth acc
  · intro md lim nm xs ys cur depth acc
    exact scanChildren_skip md lim _ (fun c d a => stepAcc_file_inaccessible md lim nm c d a)
      xs ys cur depth acc

theorem scan_depth_bound_and_skip_inst :
    (["r", "sub", "a.jpg"] ∈ gather_images 3 none
        (FSTree.dir "r" true [FSTree.dir "sub" true [FSTree.file "a.jpg" true]]) ["r"] ∧
      (["r", "sub", "a.jpg"] : Path).length ≤ (["r"] : Path).length + 3 + 1) ∧
    scanChildren 3 none
        ([] ++ FSTree.dir "locked" false [FSTree.file "b.jpg" true] ::
          [FSTree.file "c.jpg" true]) ["r"] 0 [] =
      scanChildren 3 none ([] ++ [FSTree.file "c.jpg" true]) ["r"] 0 [] :=
  ⟨⟨by decide,
    scan_depth_bound_and_skip.1 3 none
      (FSTree.dir "r" true [FSTree.dir "sub" true [FSTree.file "a.jpg" true]]) ["r"]
      ["r", "sub", "a.jpg"] (by decide)⟩,
    scan_depth_bound_and_skip.2.1 3 none "locked" [FSTree.file "b.jpg" true] []
      [FSTree.file "c.jpg" true] ["r"] 0 []⟩

end ASort
